import Mathlib

/-!
Shallow embedding of `src/vpn_monitor.py`, a VPN kill-switch watchdog.

The Python program defines a class `Sentry` with a poll rate, a fixed list of
managed command names, and a dict `processes` mapping a command name to the
`subprocess.Popen` handle the watchdog launched for it.  The interesting
behaviour is pure text processing (`check_vpn`, `parse_ps`) plus a
reconciliation loop (`run_commands`, `kill_processes`, `loop`, `run`).

Modelling choices:
  - strings are `List Char`; Python `str.split('\n')` is `splitNl`;
  - the process-table text (output of `ps -x`) and the probe text (output of
    `nordvpn status`) are inputs to each operation;
  - the `processes` dict is modelled by its key list in insertion order (the
    handle values are opaque and never inspected by the program);
  - observable side effects (prints, launches, signals, reaps, sleeps) are
    returned as an explicit `Event` list;
  - `os.kill` can raise on a pid that no longer exists: each operation that
    kills takes the set of currently existing pids (`alive`) and returns a
    `Bool` that is `false` when the uncaught exception escaped, together with
    the events that happened before the exception.
-/

/-- Python `\s` on ASCII text: the six whitespace characters. -/
def isPySpace (c : Char) : Bool :=
  c = ' ' || c = '\t' || c = '\n' || c = '\r' || c = Char.ofNat 11 || c = Char.ofNat 12

/-- Python `\w` on ASCII text: letters, digits and underscore. -/
def isWordChar (c : Char) : Bool :=
  c.isAlphanum || c = '_'

/-- Python `str.split('\n')`: split at every newline, keeping empty pieces. -/
def splitNl : List Char → List (List Char)
  | [] => [[]]
  | c :: cs =>
    if c = '\n' then [] :: splitNl cs
    else
      match splitNl cs with
      | r :: rs => (c :: r) :: rs
      | [] => [[c]]

/-- Python substring test `n in h` for strings. -/
def isSub (n : List Char) : List Char → Bool
  | [] => decide (n = [])
  | c :: t => n.isPrefixOf (c :: t) || isSub n t

/-- Python `int()` on a string of ASCII digits. -/
def natOfDigits (ds : List Char) : Nat :=
  ds.foldl (fun a c => a * 10 + (c.toNat - 48)) 0

/-- The regex attempt `Status: (\w+)` anchored at the front of `l`: if `l`
starts with `Status: ` followed by at least one word character, capture the
maximal word-character run. From `check_vpn`, line 44 of the source. -/
def statusCapture (l : List Char) : Option (List Char) :=
  if ("Status: ".toList).isPrefixOf l then
    let w := (l.drop 8).takeWhile isWordChar
    if w = [] then none else some w
  else none

/-- Python `re.search(r"Status: (\w+)", output)`: the first position where the
pattern matches, scanning left to right. -/
def reSearch : List Char → Option (List Char)
  | [] => none
  | c :: t =>
    match statusCapture (c :: t) with
    | some w => some w
    | none => reSearch t

/-- The word the probe must report, compared by `"Connected" in groups`. -/
def connectedWord : List Char := "Connected".toList

/-- `Sentry.check_vpn` (source lines 35-47): search the probe output for
`Status: (\w+)` and return whether the captured word is `Connected`. -/
def check_vpn (output : List Char) : Bool :=
  match reSearch output with
  | none => false
  | some w => decide (w = connectedWord)

/-- The regex `^\s*(\d+) (.*)$` applied by `re.fullmatch` after the leading
whitespace has been removed: a non-empty digit run, one space, the rest. -/
def parseAfterWs (rest : List Char) : Option (Nat × List Char) :=
  if (rest.takeWhile Char.isDigit) = [] then none
  else if (rest.dropWhile Char.isDigit).head? = some ' ' then
    some (natOfDigits (rest.takeWhile Char.isDigit), (rest.dropWhile Char.isDigit).tail)
  else none

/-- One line of `ps -x` output parsed by `re.fullmatch(r"^\s*(\d+) (.*)$", line)`
(source line 63): optional leading whitespace, the pid digits, a single space,
then the command-line text. -/
def parseLine (l : List Char) : Option (Nat × List Char) :=
  parseAfterWs (l.dropWhile isPySpace)

/-- The state of the `Sentry` object: poll rate, managed command names, and
the keys of the `processes` dict in insertion order. -/
structure Sentry where
  poll_rate : Nat
  command_list : List (List Char)
  processes : List (List Char)

/-- `Sentry.__init__` (source lines 20-29): poll rate 20 seconds, the two
default managed commands, no tracked handles. -/
def sentryInit : Sentry :=
  ⟨20, ["deluged".toList, "deluge-web".toList], []⟩

/-- Observable actions of the program, in the order they happen. -/
inductive Event where
  | connLog : Event
  | disconnLog : Event
  | launch : List Char → Event
  | reap : List Char → Event
  | killList : List Char → List Nat → Event
  | kill : Nat → Event
  | connectAttempt : Event
  | sleep : Nat → Event
  | termLog : Event
deriving DecidableEq

/-- The marker substring Python checks with `"<defunct>" in details`. -/
def defunctMark : List Char := "<defunct>".toList

/-- The first pass of `parse_ps` (source lines 62-70): every (cmd, pid,
details) triple appended to `processes_found`, in line order, and for each
line in `command_list` order. -/
def lineMatches (cl : List (List Char)) (line : List Char) : List (List Char × Nat × List Char) :=
  match parseLine line with
  | none => []
  | some (pid, det) => (cl.filter (fun c => isSub c det)).map (fun c => (c, pid, det))

/-- All `processes_found` triples of the `ps -x` output text. -/
def matchesFound (cl : List (List Char)) (o : List Char) : List (List Char × Nat × List Char) :=
  (splitNl o).foldr (fun line r => lineMatches cl line ++ r) []

/-- `command_pids[cmd].append(pid)` with dict insertion-order semantics
(source lines 78-81): append to an existing key's list, else add a new
key at the end. -/
def addPid : List (List Char × List Nat) → List Char → Nat → List (List Char × List Nat)
  | [], cmd, pid => [(cmd, [pid])]
  | (c, ps) :: rest, cmd, pid =>
    if c = cmd then (c, ps ++ [pid]) :: rest
    else (c, ps) :: addPid rest cmd pid

/-- Record the reap of `cmd` in front of the events of the rest of the pass. -/
def reapStep (cmd : List Char)
    (r : List (List Char) × List (List Char × List Nat) × List Event) :
    List (List Char) × List (List Char × List Nat) × List Event :=
  (r.1, r.2.1, Event.reap cmd :: r.2.2)

/-- The second pass of `parse_ps` (source lines 72-81): for each found triple,
a defunct match whose command has a tracked handle is reaped (`wait` + `pop`),
every other match is accumulated into `command_pids`.  Returns the new key
list of `processes`, the accumulated `command_pids`, and the reap events. -/
def pass2 : List (List Char × Nat × List Char) → List (List Char) → List (List Char × List Nat) →
    List (List Char) × List (List Char × List Nat) × List Event
  | [], procs, acc => (procs, acc, [])
  | (cmd, pid, det) :: rest, procs, acc =>
    if isSub defunctMark det = true ∧ cmd ∈ procs then
      reapStep cmd (pass2 rest (procs.erase cmd) acc)
    else
      pass2 rest procs (addPid acc cmd pid)

/-- `Sentry.parse_ps` (source lines 49-83) applied to one `ps -x` output text:
returns the mutated state, the `command_pids` mapping, and the reap events. -/
def parse_ps (s : Sentry) (o : List Char) : Sentry × List (List Char × List Nat) × List Event :=
  let r := pass2 (matchesFound s.command_list o) s.processes []
  (⟨s.poll_rate, s.command_list, r.1⟩, r.2.1, r.2.2)

/-- The keys of a `command_pids` mapping, as used by `parse_ps().keys()`. -/
def keysOf (m : List (List Char × List Nat)) : List (List Char) :=
  m.map (fun x => x.1)

/-- Dict lookup in a `command_pids` mapping; `[]` when the key is absent. -/
def pidsOf : List (List Char × List Nat) → List Char → List Nat
  | [], _ => []
  | (c, ps) :: rest, cmd => if c = cmd then ps else pidsOf rest cmd

/-- All pids of a `command_pids` mapping, in iteration order. -/
def flatPids : List (List Char × List Nat) → List Nat
  | [] => []
  | (_, ps) :: rest => ps ++ flatPids rest

/-- `self.processes[cmd] = Popen(cmd)` on the key list: an existing key keeps
its place, a new key is appended. -/
def insertKey (procs : List (List Char)) (c : List Char) : List (List Char) :=
  if c ∈ procs then procs else procs ++ [c]

/-- Record the launch of `c` in front of the events of the rest of the loop. -/
def launchStep (c : List Char) (r : List (List Char) × List Event) :
    List (List Char) × List Event :=
  (r.1, Event.launch c :: r.2)

/-- The launch loop of `run_commands` (source lines 89-92): for each command
in `command_list` order, if it is not among the enumeration's keys, print the
launch and record the new handle. -/
def launchGo (keys : List (List Char)) : List (List Char) → List (List Char) →
    List (List Char) × List Event
  | [], procs => (procs, [])
  | c :: cs, procs =>
    if c ∈ keys then launchGo keys cs procs
    else launchStep c (launchGo keys cs (insertKey procs c))

/-- `Sentry.run_commands` (source lines 85-92): enumerate, then launch every
managed command that is not a key of the enumeration. -/
def runCommands (s : Sentry) (o : List Char) : Sentry × List Event :=
  let pr := parse_ps s o
  let r := launchGo (keysOf pr.2.1) pr.1.command_list pr.1.processes
  (⟨pr.1.poll_rate, pr.1.command_list, r.1⟩, pr.2.2 ++ r.2)

/-- Record a successful `os.kill p` in front of the later events. -/
def killStep (p : Nat) (r : Bool × List Event) : Bool × List Event :=
  (r.1, Event.kill p :: r.2)

/-- The inner pid loop of `kill_processes` (source lines 99-100): `os.kill`
each pid in order.  A pid that no longer exists raises: the result flag is
`false` and the remaining pids receive no signal. -/
def killPids (alive : List Nat) : List Nat → Bool × List Event
  | [] => (true, [])
  | p :: ps =>
    if p ∈ alive then killStep p (killPids alive ps)
    else (false, [])

/-- One command of the kill loop: print the listing, kill the command's pids
(`r`), and only when no exception was raised go on with the rest (`r2`). -/
def killGroup (cmd : List Char) (ps : List Nat) (r r2 : Bool × List Event) :
    Bool × List Event :=
  if r.1 then (r2.1, Event.killList cmd ps :: (r.2 ++ r2.2))
  else (false, Event.killList cmd ps :: r.2)

/-- The outer loop of `kill_processes` (source lines 97-100): per command,
print the kill listing, then kill its pids; an exception aborts the rest. -/
def killLoop (alive : List Nat) : List (List Char × List Nat) → Bool × List Event
  | [] => (true, [])
  | (cmd, ps) :: rest => killGroup cmd ps (killPids alive ps) (killLoop alive rest)

/-- `Sentry.kill_processes` (source lines 94-100): enumerate, then kill every
listed pid.  The `Bool` is `false` when an `os.kill` raised. -/
def kill_processes (s : Sentry) (o : List Char) (alive : List Nat) :
    Sentry × Bool × List Event :=
  let pr := parse_ps s o
  let r := killLoop alive pr.2.1
  (pr.1, r.1, pr.2.2 ++ r.2)

/-- The pids killed, in order, according to an event list. -/
def killsOf : List Event → List Nat
  | [] => []
  | Event.kill p :: rest => p :: killsOf rest
  | _ :: rest => killsOf rest

/-- Occurrences of one event in an event list. -/
def countOf (e : Event) : List Event → Nat
  | [] => 0
  | x :: rest => (if x = e then 1 else 0) + countOf e rest

/-- One iteration of `Sentry.loop` (source lines 106-123): probe, log the
edge, then either ensure-running and sleep, or kill-all and request a
connect.  The middle component is the new value of the `connected` flag, or
`none` when an uncaught exception broke the loop. -/
def tick (s : Sentry) (conn : Bool) (v o : List Char) (alive : List Nat) :
    Sentry × Option Bool × List Event :=
  if check_vpn v then
    ((runCommands s o).1, some true,
      (if conn then ([] : List Event) else [Event.connLog]) ++ (runCommands s o).2 ++
        [Event.sleep s.poll_rate])
  else if (kill_processes s o alive).2.1 then
    ((kill_processes s o alive).1, some false,
      (if conn then [Event.disconnLog] else ([] : List Event)) ++
        (kill_processes s o alive).2.2 ++ [Event.connectAttempt])
  else
    ((kill_processes s o alive).1, none,
      (if conn then [Event.disconnLog] else ([] : List Event)) ++
        (kill_processes s o alive).2.2)

/-- The `finally` block of `Sentry.run` (source lines 125-131): once the loop
stops, for any reason, print the terminal message and run `kill_processes`
once on the state the loop left behind. -/
def run_finally (s : Sentry) (o : List Char) (alive : List Nat) :
    Sentry × Bool × List Event :=
  let r := kill_processes s o alive
  (r.1, r.2.1, Event.termLog :: r.2.2)

/-- Input of one tick: the probe output, the `ps -x` output, and the pids
that currently exist (can be signalled). -/
structure TickIn where
  vpn : List Char
  ps : List Char
  alive : List Nat

/-- Glue one tick's outcome to the run of the remaining ticks: when the tick
ended normally the loop goes on with the new `connected` flag, when it raised
the loop stops there. -/
def loopStep (tk : Sentry × Option Bool × List Event)
    (f : Bool → Sentry × Option Bool × List Event) : Sentry × Option Bool × List Event :=
  match tk.2.1 with
  | some c => ((f c).1, (f c).2.1, tk.2.2 ++ (f c).2.2)
  | none => (tk.1, none, tk.2.2)

/-- A finite run of `Sentry.loop` from a given `connected` flag over a list
of tick inputs; stops early when a tick breaks the loop. -/
def loopRun : Sentry → Bool → List TickIn → Sentry × Option Bool × List Event
  | s, conn, [] => (s, some conn, [])
  | s, conn, t :: ts =>
    loopStep (tick s conn t.vpn t.ps t.alive)
      (fun c => loopRun (tick s conn t.vpn t.ps t.alive).1 c ts)

/-- Number of false-to-true transitions in a boolean sequence, starting from
a previous value. -/
def rises (p : Bool) : List Bool → Nat
  | [] => 0
  | b :: bs => (if b && !p then 1 else 0) + rises b bs

/-- Number of true-to-false transitions in a boolean sequence, starting from
a previous value. -/
def falls (p : Bool) : List Bool → Nat
  | [] => 0
  | b :: bs => (if !b && p then 1 else 0) + falls b bs

/-- The handle-map invariant of the spec: every tracked key is a managed
command, and no key is tracked twice. -/
def SentryInv (s : Sentry) : Prop :=
  (∀ c ∈ s.processes, c ∈ s.command_list) ∧ s.processes.Nodup

/-! Basic list lemmas used throughout. -/

lemma countOf_append (e : Event) (l1 l2 : List Event) :
    countOf e (l1 ++ l2) = countOf e l1 + countOf e l2 := by
  induction l1 with
  | nil => simp [countOf]
  | cons x t ih => simp [countOf, ih, Nat.add_assoc]

lemma countOf_eq_zero {e : Event} {l : List Event} (h : e ∉ l) : countOf e l = 0 := by
  induction l with
  | nil => rfl
  | cons x t ih =>
    rw [List.mem_cons, not_or] at h
    rw [countOf, if_neg (fun he => h.1 he.symm), ih h.2]

lemma dropWhile_append_all {α : Type} {p : α → Bool} {l1 : List α}
    (h : ∀ a ∈ l1, p a = true) (l2 : List α) :
    (l1 ++ l2).dropWhile p = l2.dropWhile p := by
  induction l1 with
  | nil => rfl
  | cons a t ih =>
    have ha := h a (List.mem_cons_self a t)
    simp only [List.cons_append, List.dropWhile_cons, ha, if_true]
    exact ih (fun b hb => h b (List.mem_cons_of_mem _ hb))

lemma dropWhile_cons_neg {α : Type} {p : α → Bool} {a : α} (l : List α) (h : p a = false) :
    (a :: l).dropWhile p = a :: l := by
  simp [List.dropWhile_cons, h]

lemma takeWhile_append_all {α : Type} {p : α → Bool} {l1 : List α}
    (h : ∀ a ∈ l1, p a = true) (l2 : List α) :
    (l1 ++ l2).takeWhile p = l1 ++ l2.takeWhile p := by
  induction l1 with
  | nil => rfl
  | cons a t ih =>
    have ha := h a (List.mem_cons_self a t)
    simp only [List.cons_append, List.takeWhile_cons, ha, if_true]
    rw [ih (fun b hb => h b (List.mem_cons_of_mem _ hb))]

lemma takeWhile_cons_neg {α : Type} {p : α → Bool} {a : α} (l : List α) (h : p a = false) :
    (a :: l).takeWhile p = [] := by
  simp [List.takeWhile_cons, h]

lemma takeWhile_eq_self_of_all {α : Type} {p : α → Bool} {l : List α}
    (h : ∀ a ∈ l, p a = true) : l.takeWhile p = l := by
  induction l with
  | nil => rfl
  | cons a t ih =>
    simp only [List.takeWhile_cons, h a (List.mem_cons_self a t), if_true]
    rw [ih (fun b hb => h b (List.mem_cons_of_mem _ hb))]

lemma takeWhile_append_stop {α : Type} {p : α → Bool} {l1 : List α}
    (h : l1.all p = false) (l2 : List α) :
    (l1 ++ l2).takeWhile p = l1.takeWhile p := by
  induction l1 with
  | nil => simp at h
  | cons a t ih =>
    cases ha : p a with
    | false => simp [List.takeWhile_cons, ha]
    | true =>
      rw [List.all_cons, ha, Bool.true_and] at h
      simp only [List.cons_append, List.takeWhile_cons, ha, if_true]
      rw [ih h]

/-! Lemmas about the probe parser, `check_vpn`. -/

lemma statusCapture_nil : statusCapture ([] : List Char) = none := rfl

lemma reSearch_iff (l w : List Char) :
    reSearch l = some w ↔
      ∃ i, statusCapture (l.drop i) = some w ∧ ∀ j, j < i → statusCapture (l.drop j) = none := by
  induction l with
  | nil =>
    constructor
    · intro h; simp [reSearch] at h
    · rintro ⟨i, hi, -⟩
      rw [List.drop_nil, statusCapture_nil] at hi
      exact Option.noConfusion hi
  | cons c t ih =>
    cases hc : statusCapture (c :: t) with
    | some w' =>
      constructor
      · intro h
        simp only [reSearch, hc] at h
        injection h with hw
        subst hw
        exact ⟨0, by simpa using hc, fun j hj => absurd hj (Nat.not_lt_zero j)⟩
      · rintro ⟨i, hi, hj⟩
        cases i with
        | zero =>
          rw [List.drop_zero, hc] at hi
          simp only [reSearch, hc]
          exact hi
        | succ k =>
          have h0 := hj 0 (Nat.succ_pos k)
          rw [List.drop_zero, hc] at h0
          exact Option.noConfusion h0
    | none =>
      constructor
      · intro h
        simp only [reSearch, hc] at h
        obtain ⟨i, hi, hj⟩ := ih.mp h
        refine ⟨i + 1, by simpa [List.drop_succ_cons] using hi, ?_⟩
        intro j hjlt
        cases j with
        | zero => simpa using hc
        | succ j' =>
          rw [List.drop_succ_cons]
          exact hj j' (Nat.lt_of_succ_lt_succ hjlt)
      · rintro ⟨i, hi, hj⟩
        cases i with
        | zero =>
          rw [List.drop_zero, hc] at hi
          exact Option.noConfusion hi
        | succ k =>
          have ht : reSearch t = some w := by
            refine ih.mpr ⟨k, by simpa [List.drop_succ_cons] using hi, ?_⟩
            intro j hjk
            have := hj (j + 1) (Nat.succ_lt_succ hjk)
            rwa [List.drop_succ_cons] at this
          simp only [reSearch, hc]
          exact ht

lemma check_vpn_iff (l : List Char) :
    check_vpn l = true ↔ reSearch l = some connectedWord := by
  cases hr : reSearch l with
  | none => simp [check_vpn, hr]
  | some w => simp [check_vpn, hr]

/-- Claim C6: `check_vpn` returns true iff the left-to-right regex search for
`Status: (\w+)` over the probe output succeeds with captured word exactly
`Connected`; any other word, or no match at all (including empty output),
yields false, and the function is total (no error reaches the loop).
Scenario checks: `Status: Connected` is true, `Status: Disconnected` false,
empty output false. -/
theorem C6_check_vpn_status :
    (∀ l : List Char, check_vpn l = true ↔
      ∃ i, statusCapture (l.drop i) = some connectedWord ∧
        ∀ j, j < i → statusCapture (l.drop j) = none) ∧
    check_vpn ("Status: Connected".toList) = true ∧
    check_vpn ("Status: Disconnected".toList) = false ∧
    check_vpn ([] : List Char) = false := by
  refine ⟨fun l => (check_vpn_iff l).trans (reSearch_iff l connectedWord), by decide, by decide, rfl⟩

/-- Witness for C6: the characterization applied at the concrete probe output
`Status: Connected` produces the first-match decomposition. -/
theorem C6_check_vpn_status_witness :
    ∃ i, statusCapture (("Status: Connected".toList).drop i) = some connectedWord ∧
      ∀ j, j < i → statusCapture (("Status: Connected".toList).drop j) = none :=
  (C6_check_vpn_status.1 ("Status: Connected".toList)).mp C6_check_vpn_status.2.1

/-! Lemmas about the process-table line parser. -/

lemma not_pySpace_of_isDigit {c : Char} (h : c.isDigit = true) : isPySpace c = false := by
  cases hs : isPySpace c with
  | false => rfl
  | true =>
    exfalso
    simp only [isPySpace, Bool.or_eq_true, decide_eq_true_eq] at hs
    rcases hs with ((((h1 | h1) | h1) | h1) | h1) | h1 <;> subst h1 <;>
      exact absurd h (by decide)

lemma parseLine_pattern (ws ds det : List Char) (hws : ∀ c ∈ ws, isPySpace c = true)
    (hne : ds ≠ []) (hds : ∀ c ∈ ds, c.isDigit = true) :
    parseLine (ws ++ ds ++ ' ' :: det) = some (natOfDigits ds, det) := by
  obtain ⟨d, ds', rfl⟩ := List.exists_cons_of_ne_nil hne
  have e1 : (ws ++ (d :: ds') ++ ' ' :: det).dropWhile isPySpace = (d :: ds') ++ ' ' :: det := by
    rw [List.append_assoc, dropWhile_append_all hws]
    exact dropWhile_cons_neg _ (not_pySpace_of_isDigit (hds d (List.mem_cons_self d ds')))
  have e2 : ((d :: ds') ++ ' ' :: det).takeWhile Char.isDigit = d :: ds' := by
    rw [takeWhile_append_all hds, takeWhile_cons_neg _ (by decide), List.append_nil]
  have e3 : ((d :: ds') ++ ' ' :: det).dropWhile Char.isDigit = ' ' :: det := by
    rw [dropWhile_append_all hds]
    exact dropWhile_cons_neg _ (by decide)
  unfold parseLine
  rw [e1]
  unfold parseAfterWs
  rw [e2, e3]
  simp

lemma parseLine_inv (l : List Char) (n : Nat) (det : List Char)
    (h : parseLine l = some (n, det)) :
    ∃ ws ds, l = ws ++ ds ++ ' ' :: det ∧ (∀ c ∈ ws, isPySpace c = true) ∧ ds ≠ [] ∧
      (∀ c ∈ ds, c.isDigit = true) ∧ n = natOfDigits ds := by
  have hl : l.takeWhile isPySpace ++ l.dropWhile isPySpace = l :=
    List.takeWhile_append_dropWhile _ _
  unfold parseLine parseAfterWs at h
  by_cases hds : (l.dropWhile isPySpace).takeWhile Char.isDigit = []
  · rw [if_pos hds] at h
    exact Option.noConfusion h
  · rw [if_neg hds] at h
    by_cases hsp : ((l.dropWhile isPySpace).dropWhile Char.isDigit).head? = some ' '
    · rw [if_pos hsp] at h
      injection h with h'
      rw [Prod.mk.injEq] at h'
      obtain ⟨hn, hdet⟩ := h'
      cases hdrop : (l.dropWhile isPySpace).dropWhile Char.isDigit with
      | nil =>
        rw [hdrop] at hsp
        exact absurd hsp (by simp)
      | cons a r =>
        rw [hdrop] at hsp
        have ha : a = ' ' := by simpa using hsp
        rw [hdrop] at hdet
        simp only [List.tail_cons] at hdet
        subst ha
        subst hdet
        refine ⟨l.takeWhile isPySpace, (l.dropWhile isPySpace).takeWhile Char.isDigit,
          ?_, ?_, hds, ?_, hn.symm⟩
        · have h2 : (l.dropWhile isPySpace).takeWhile Char.isDigit ++
              (l.dropWhile isPySpace).dropWhile Char.isDigit = l.dropWhile isPySpace :=
            List.takeWhile_append_dropWhile _ _
          rw [hdrop] at h2
          rw [List.append_assoc, h2, hl]
        · exact fun c hc => List.mem_takeWhile_imp hc
        · exact fun c hc => List.mem_takeWhile_imp hc
    · rw [if_neg hsp] at h
      exact Option.noConfusion h

/-- Claim C9: the scenario text `"  123 deluged --flag\n 456 unrelated-proc\n"`
with the default managed set `{deluged, deluge-web}` enumerates to exactly
`{"deluged": [123]}`; a line is parsed as optional leading whitespace, digits
(the pid), one space, then the command-line text; and a line that does not
match this pattern is skipped without error (it contributes no matches). -/
theorem C9_parse_scenario :
    (parse_ps sentryInit ("  123 deluged --flag\n 456 unrelated-proc\n".toList)).2.1 =
      [("deluged".toList, [123])] ∧
    (∀ ws ds det : List Char, (∀ c ∈ ws, isPySpace c = true) → ds ≠ [] →
      (∀ c ∈ ds, c.isDigit = true) →
      parseLine (ws ++ ds ++ ' ' :: det) = some (natOfDigits ds, det)) ∧
    (∀ l n det, parseLine l = some (n, det) →
      ∃ ws ds, l = ws ++ ds ++ ' ' :: det ∧ (∀ c ∈ ws, isPySpace c = true) ∧ ds ≠ [] ∧
        (∀ c ∈ ds, c.isDigit = true) ∧ n = natOfDigits ds) ∧
    (∀ (cl : List (List Char)) line, parseLine line = none → lineMatches cl line = []) := by
  refine ⟨by decide, parseLine_pattern, parseLine_inv, ?_⟩
  intro cl line h
  simp [lineMatches, h]

/-- Witness for C9: the pattern rule applied at a concrete line. -/
theorem C9_parse_scenario_witness :
    parseLine ([' '] ++ ['4', '5'] ++ ' ' :: ['x']) = some (natOfDigits ['4', '5'], ['x']) :=
  C9_parse_scenario.2.1 [' '] ['4', '5'] ['x'] (by decide) (by decide) (by decide)

/-! Lemmas about `pass2`, `addPid` and `parse_ps`. -/

lemma parse_ps_procs (s : Sentry) (o : List Char) :
    (parse_ps s o).1.processes = (pass2 (matchesFound s.command_list o) s.processes []).1 := rfl

lemma parse_ps_map (s : Sentry) (o : List Char) :
    (parse_ps s o).2.1 = (pass2 (matchesFound s.command_list o) s.processes []).2.1 := rfl

lemma parse_ps_events (s : Sentry) (o : List Char) :
    (parse_ps s o).2.2 = (pass2 (matchesFound s.command_list o) s.processes []).2.2 := rfl

lemma parse_ps_cl (s : Sentry) (o : List Char) :
    (parse_ps s o).1.command_list = s.command_list := rfl

lemma flatPids_cons (c : List Char) (ps : List Nat) (rest : List (List Char × List Nat)) :
    flatPids ((c, ps) :: rest) = ps ++ flatPids rest := rfl

lemma addPid_flat_mem {acc : List (List Char × List Nat)} {c : List Char} {p q : Nat}
    (h : q ∈ flatPids (addPid acc c p)) : q ∈ flatPids acc ∨ q = p := by
  induction acc with
  | nil =>
    refine Or.inr ?_
    simpa [addPid, flatPids] using h
  | cons x rest ih =>
    obtain ⟨cx, psx⟩ := x
    by_cases hc : cx = c
    · simp only [addPid, if_pos hc, flatPids_cons, List.mem_append, List.mem_singleton] at h
      rcases h with (h | h) | h
      · exact Or.inl (by rw [flatPids_cons, List.mem_append]; exact Or.inl h)
      · exact Or.inr h
      · exact Or.inl (by rw [flatPids_cons, List.mem_append]; exact Or.inr h)
    · simp only [addPid, if_neg hc, flatPids_cons, List.mem_append] at h
      rcases h with h | h
      · exact Or.inl (by rw [flatPids_cons, List.mem_append]; exact Or.inl h)
      · rcases ih h with h' | h'
        · exact Or.inl (by rw [flatPids_cons, List.mem_append]; exact Or.inr h')
        · exact Or.inr h'

lemma addPid_pidsOf_self (acc : List (List Char × List Nat)) (cmd : List Char) (pid : Nat) :
    pid ∈ pidsOf (addPid acc cmd pid) cmd := by
  induction acc with
  | nil => simp [addPid, pidsOf]
  | cons x rest ih =>
    obtain ⟨cx, psx⟩ := x
    by_cases hc : cx = cmd
    · simp [addPid, if_pos hc, pidsOf, hc]
    · simp only [addPid, if_neg hc, pidsOf, if_neg hc]
      exact ih

lemma addPid_pidsOf_mono {acc : List (List Char × List Nat)} {c0 : List Char} {q : Nat}
    (c : List Char) (p : Nat) (h : q ∈ pidsOf acc c0) : q ∈ pidsOf (addPid acc c p) c0 := by
  induction acc with
  | nil => simp [pidsOf] at h
  | cons x rest ih =>
    obtain ⟨cx, psx⟩ := x
    by_cases hc : cx = c
    · simp only [addPid, if_pos hc, pidsOf] at h ⊢
      by_cases h0 : cx = c0
      · rw [if_pos h0] at h ⊢
        exact List.mem_append.mpr (Or.inl h)
      · rwa [if_neg h0] at h ⊢
    · simp only [addPid, if_neg hc, pidsOf] at h ⊢
      by_cases h0 : cx = c0
      · rwa [if_pos h0] at h ⊢
      · rw [if_neg h0] at h ⊢
        exact ih h

lemma pass2_pids_mono {ms : List (List Char × Nat × List Char)} {c0 : List Char} {q : Nat} :
    ∀ {procs : List (List Char)} {acc : List (List Char × List Nat)},
      q ∈ pidsOf acc c0 → q ∈ pidsOf (pass2 ms procs acc).2.1 c0 := by
  induction ms with
  | nil => intro procs acc h; exact h
  | cons x rest ih =>
    intro procs acc h
    obtain ⟨cmd, pid, det⟩ := x
    by_cases hc : isSub defunctMark det = true ∧ cmd ∈ procs
    · rw [pass2, if_pos hc]
      exact ih h
    · rw [pass2, if_neg hc]
      exact ih (addPid_pidsOf_mono cmd pid h)

lemma pass2_events_reap {ms : List (List Char × Nat × List Char)} :
    ∀ {procs : List (List Char)} {acc : List (List Char × List Nat)} {e : Event},
      e ∈ (pass2 ms procs acc).2.2 → ∃ c, e = Event.reap c := by
  induction ms with
  | nil => intro procs acc e h; simp [pass2] at h
  | cons x rest ih =>
    intro procs acc e h
    obtain ⟨cmd, pid, det⟩ := x
    by_cases hc : isSub defunctMark det = true ∧ cmd ∈ procs
    · rw [pass2, if_pos hc] at h
      rcases List.mem_cons.mp h with h | h
      · exact ⟨cmd, h⟩
      · exact ih h
    · rw [pass2, if_neg hc] at h
      exact ih h

lemma pass2_no_reap {ms : List (List Char × Nat × List Char)} {cmd : List Char} :
    ∀ {procs : List (List Char)} {acc : List (List Char × List Nat)},
      cmd ∉ procs → Event.reap cmd ∉ (pass2 ms procs acc).2.2 := by
  induction ms with
  | nil => intro procs acc _ h; simp [pass2] at h
  | cons x rest ih =>
    intro procs acc hnp h
    obtain ⟨c', p', d'⟩ := x
    by_cases hc : isSub defunctMark d' = true ∧ c' ∈ procs
    · rw [pass2, if_pos hc] at h
      rcases List.mem_cons.mp h with h | h
      · injection h with hcc
        exact hnp (hcc ▸ hc.2)
      · exact ih (fun hm => hnp (List.erase_subset _ _ hm)) h
    · rw [pass2, if_neg hc] at h
      exact ih hnp h

lemma pass2_procs_subset {ms : List (List Char × Nat × List Char)} :
    ∀ {procs : List (List Char)} {acc : List (List Char × List Nat)},
      (pass2 ms procs acc).1 ⊆ procs := by
  induction ms with
  | nil => intro procs acc; exact fun a ha => ha
  | cons x rest ih =>
    intro procs acc
    obtain ⟨cmd, pid, det⟩ := x
    by_cases hc : isSub defunctMark det = true ∧ cmd ∈ procs
    · rw [pass2, if_pos hc]
      exact fun a ha => List.erase_subset _ _ (ih ha)
    · rw [pass2, if_neg hc]
      exact ih

lemma pass2_procs_nodup {ms : List (List Char × Nat × List Char)} :
    ∀ {procs : List (List Char)} {acc : List (List Char × List Nat)},
      procs.Nodup → (pass2 ms procs acc).1.Nodup := by
  induction ms with
  | nil => intro procs acc h; exact h
  | cons x rest ih =>
    intro procs acc h
    obtain ⟨cmd, pid, det⟩ := x
    by_cases hc : isSub defunctMark det = true ∧ cmd ∈ procs
    · rw [pass2, if_pos hc]
      exact ih (List.Nodup.erase cmd h)
    · rw [pass2, if_neg hc]
      exact ih h

lemma pass2_flat_src {ms : List (List Char × Nat × List Char)} {q : Nat} :
    ∀ {procs : List (List Char)} {acc : List (List Char × List Nat)},
      q ∈ flatPids (pass2 ms procs acc).2.1 →
        q ∈ flatPids acc ∨ ∃ x ∈ ms, x.2.1 = q := by
  induction ms with
  | nil => intro procs acc h; exact Or.inl h
  | cons x rest ih =>
    intro procs acc h
    obtain ⟨cmd, pid, det⟩ := x
    by_cases hc : isSub defunctMark det = true ∧ cmd ∈ procs
    · rw [pass2, if_pos hc] at h
      rcases ih h with h' | ⟨y, hy, hyq⟩
      · exact Or.inl h'
      · exact Or.inr ⟨y, List.mem_cons_of_mem _ hy, hyq⟩
    · rw [pass2, if_neg hc] at h
      rcases ih h with h' | ⟨y, hy, hyq⟩
      · rcases addPid_flat_mem h' with h'' | h''
        · exact Or.inl h''
        · exact Or.inr ⟨(cmd, pid, det), List.mem_cons_self _ _, h''.symm⟩
      · exact Or.inr ⟨y, List.mem_cons_of_mem _ hy, hyq⟩

lemma pass2_adds {ms : List (List Char × Nat × List Char)} {cmd : List Char} {pid : Nat}
    {det : List Char} :
    ∀ {procs : List (List Char)} {acc : List (List Char × List Nat)},
      (cmd, pid, det) ∈ ms → cmd ∉ procs → pid ∈ pidsOf (pass2 ms procs acc).2.1 cmd := by
  induction ms with
  | nil => intro procs acc h _; simp at h
  | cons x rest ih =>
    intro procs acc hm hnp
    rcases List.mem_cons.mp hm with hx | hx
    · subst hx
      have hc : ¬(isSub defunctMark det = true ∧ cmd ∈ procs) := fun h => hnp h.2
      rw [pass2, if_neg hc]
      exact pass2_pids_mono (addPid_pidsOf_self acc cmd pid)
    · obtain ⟨c', p', d'⟩ := x
      by_cases hc : isSub defunctMark d' = true ∧ c' ∈ procs
      · rw [pass2, if_pos hc]
        exact ih hx (fun hm' => hnp (List.erase_subset _ _ hm'))
      · rw [pass2, if_neg hc]
        exact ih hx hnp

lemma pass2_tail {ms : List (List Char × Nat × List Char)} {cmd : List Char} {pid : Nat} :
    ∀ {procs : List (List Char)} {acc : List (List Char × List Nat)},
      (∀ x ∈ ms, x.2.1 ≠ pid) → cmd ∉ procs → pid ∉ flatPids acc →
        cmd ∉ (pass2 ms procs acc).1 ∧ pid ∉ flatPids (pass2 ms procs acc).2.1 := by
  induction ms with
  | nil => intro procs acc _ h2 h3; exact ⟨h2, h3⟩
  | cons x rest ih =>
    intro procs acc h1 h2 h3
    obtain ⟨c', q, d'⟩ := x
    by_cases hc : isSub defunctMark d' = true ∧ c' ∈ procs
    · rw [pass2, if_pos hc]
      exact ih (fun y hy => h1 y (List.mem_cons_of_mem _ hy))
        (fun hm => h2 (List.erase_subset _ _ hm)) h3
    · rw [pass2, if_neg hc]
      refine ih (fun y hy => h1 y (List.mem_cons_of_mem _ hy)) h2 ?_
      intro hmem
      rcases addPid_flat_mem hmem with h' | h'
      · exact h3 h'
      · exact h1 (c', q, d') (List.mem_cons_self _ _) h'.symm

lemma pass2_mid {ms2 : List (List Char × Nat × List Char)} {cmd : List Char} {pid : Nat}
    {det : List Char} (ms1 : List (List Char × Nat × List Char)) :
    ∀ {procs : List (List Char)} {acc : List (List Char × List Nat)},
      (∀ x ∈ ms1, x.2.1 ≠ pid ∧ (x.1 = cmd → isSub defunctMark x.2.2 = false)) →
      (∀ x ∈ ms2, x.2.1 ≠ pid) →
      isSub defunctMark det = true → cmd ∈ procs → procs.Nodup → pid ∉ flatPids acc →
        cmd ∉ (pass2 (ms1 ++ (cmd, pid, det) :: ms2) procs acc).1 ∧
          pid ∉ flatPids (pass2 (ms1 ++ (cmd, pid, det) :: ms2) procs acc).2.1 := by
  induction ms1 with
  | nil =>
    intro procs acc _ h2 hz hin hnd hacc
    rw [List.nil_append, pass2, if_pos ⟨hz, hin⟩]
    exact pass2_tail h2 (List.Nodup.not_mem_erase hnd) hacc
  | cons x ms1' ih =>
    intro procs acc h1 h2 hz hin hnd hacc
    obtain ⟨c', q, d'⟩ := x
    have hx := h1 (c', q, d') (List.mem_cons_self _ _)
    rw [List.cons_append]
    by_cases hc : isSub defunctMark d' = true ∧ c' ∈ procs
    · have hne : c' ≠ cmd := by
        intro he
        rw [hx.2 he] at hc
        exact Bool.false_ne_true hc.1
      rw [pass2, if_pos hc]
      exact ih (fun y hy => h1 y (List.mem_cons_of_mem _ hy)) h2 hz
        ((List.mem_erase_of_ne (fun he => hne he.symm)).mpr hin)
        (List.Nodup.erase c' hnd) hacc
    · rw [pass2, if_neg hc]
      refine ih (fun y hy => h1 y (List.mem_cons_of_mem _ hy)) h2 hz hin hnd ?_
      intro hmem
      rcases addPid_flat_mem hmem with h' | h'
      · exact hacc h'
      · exact hx.1 h'.symm

/-- Claim C3, counterexample: with no tracked handle, the process-table text
`"  123 deluged <defunct>\n"` yields a zombie match for `deluged`; the claim
says its pid is dropped, but the enumeration returns `{"deluged": [123]}` (and
indeed reaps nothing).  The defunct match lands in the `else` branch of the
second pass because `cmd in self.processes` is false, so the pid is
accumulated like a live one. -/
theorem C3_counterexample :
    (parse_ps sentryInit ("  123 deluged <defunct>\n".toList)).2.1 =
      [("deluged".toList, [123])] ∧
    (parse_ps sentryInit ("  123 deluged <defunct>\n".toList)).2.2 = [] := by
  constructor
  · decide
  · decide

/-- Claim C3 (amended): for every process-table match marked defunct whose
command has no tracked handle, nothing is reaped, but the match is not
dropped: its pid is accumulated in the returned mapping under its command,
exactly like a live match. -/
theorem C3_zombie_unowned_listed (s : Sentry) (o cmd : List Char) (pid : Nat) (det : List Char)
    (hm : (cmd, pid, det) ∈ matchesFound s.command_list o)
    (_hz : isSub defunctMark det = true)
    (hnp : cmd ∉ s.processes) :
    pid ∈ pidsOf (parse_ps s o).2.1 cmd ∧ Event.reap cmd ∉ (parse_ps s o).2.2 := by
  rw [parse_ps_map, parse_ps_events]
  exact ⟨pass2_adds hm hnp, pass2_no_reap hnp⟩

/-- Witness for the amended C3 at the counterexample input. -/
theorem C3_zombie_unowned_listed_witness :
    123 ∈ pidsOf (parse_ps sentryInit ("  123 deluged <defunct>\n".toList)).2.1
        ("deluged".toList) ∧
      Event.reap ("deluged".toList) ∉
        (parse_ps sentryInit ("  123 deluged <defunct>\n".toList)).2.2 :=
  C3_zombie_unowned_listed sentryInit ("  123 deluged <defunct>\n".toList)
    ("deluged".toList) 123 ("deluged <defunct>".toList)
    (by decide) (by decide) (by decide)

/-- Claim C7: if the loop holds a handle for `cmd` and the process table
holds a defunct entry for `cmd` (and that entry is the only defunct match for
`cmd`, its pid occurring in no other match), then the enumeration of the next
tick reaps it: `cmd` leaves the handle map and the defunct pid is not listed
as live.  `parse_ps` runs first in both the connected and the disconnected
branch of the loop, so this holds for a tick in either state. -/
theorem C7_zombie_owned_reaped (s : Sentry) (o cmd : List Char) (pid : Nat) (det : List Char)
    (ms1 ms2 : List (List Char × Nat × List Char))
    (hsplit : matchesFound s.command_list o = ms1 ++ (cmd, pid, det) :: ms2)
    (hz : isSub defunctMark det = true)
    (hin : cmd ∈ s.processes) (hnd : s.processes.Nodup)
    (hside : ∀ x ∈ ms1 ++ ms2, x.2.1 ≠ pid ∧ (x.1 = cmd → isSub defunctMark x.2.2 = false)) :
    cmd ∉ (parse_ps s o).1.processes ∧ pid ∉ flatPids (parse_ps s o).2.1 := by
  rw [parse_ps_procs, parse_ps_map, hsplit]
  exact pass2_mid ms1
    (fun x hx => hside x (List.mem_append.mpr (Or.inl hx)))
    (fun x hx => (hside x (List.mem_append.mpr (Or.inr hx))).1)
    hz hin hnd (by simp [flatPids])

/-- Witness for C7: a tracked `deluged` handle plus the table line
`"  55 deluged <defunct>"` gets reaped and pid 55 is not listed. -/
theorem C7_zombie_owned_reaped_witness :
    "deluged".toList ∉
        (parse_ps ⟨20, ["deluged".toList, "deluge-web".toList], ["deluged".toList]⟩
          ("  55 deluged <defunct>\n".toList)).1.processes ∧
      55 ∉ flatPids
        (parse_ps ⟨20, ["deluged".toList, "deluge-web".toList], ["deluged".toList]⟩
          ("  55 deluged <defunct>\n".toList)).2.1 :=
  C7_zombie_owned_reaped ⟨20, ["deluged".toList, "deluge-web".toList], ["deluged".toList]⟩
    ("  55 deluged <defunct>\n".toList) ("deluged".toList) 55 ("deluged <defunct>".toList)
    [] [] (by decide) (by decide) (by decide) (by decide) (by decide)

/-! Lemmas about killing and the disconnected branch. -/

lemma kill_processes_state (s : Sentry) (o : List Char) (alive : List Nat) :
    (kill_processes s o alive).1 = (parse_ps s o).1 := rfl

lemma kill_processes_ok (s : Sentry) (o : List Char) (alive : List Nat) :
    (kill_processes s o alive).2.1 = (killLoop alive (parse_ps s o).2.1).1 := rfl

lemma kill_processes_events (s : Sentry) (o : List Char) (alive : List Nat) :
    (kill_processes s o alive).2.2 =
      (parse_ps s o).2.2 ++ (killLoop alive (parse_ps s o).2.1).2 := rfl

lemma run_finally_ok (s : Sentry) (o : List Char) (alive : List Nat) :
    (run_finally s o alive).2.1 = (kill_processes s o alive).2.1 := rfl

lemma run_finally_events (s : Sentry) (o : List Char) (alive : List Nat) :
    (run_finally s o alive).2.2 = Event.termLog :: (kill_processes s o alive).2.2 := rfl

lemma killsOf_append (l1 l2 : List Event) : killsOf (l1 ++ l2) = killsOf l1 ++ killsOf l2 := by
  induction l1 with
  | nil => rfl
  | cons x t ih => cases x <;> simp [killsOf, ih]

lemma killsOf_mem {p : Nat} {es : List Event} (h : p ∈ killsOf es) : Event.kill p ∈ es := by
  induction es with
  | nil => simp [killsOf] at h
  | cons x t ih =>
    cases x
    case kill q =>
      simp only [killsOf, List.mem_cons] at h
      rcases h with h | h
      · subst h
        exact List.mem_cons_self _ _
      · exact List.mem_cons_of_mem _ (ih h)
    all_goals exact List.mem_cons_of_mem _ (ih (by simpa [killsOf] using h))

lemma killsOf_of_reaps {es : List Event} (h : ∀ e ∈ es, ∃ c, e = Event.reap c) :
    killsOf es = [] := by
  induction es with
  | nil => rfl
  | cons x t ih =>
    obtain ⟨c, hc⟩ := h x (List.mem_cons_self _ _)
    subst hc
    simp only [killsOf]
    exact ih (fun e he => h e (List.mem_cons_of_mem _ he))

lemma killPids_ok (alive : List Nat) (ps : List Nat) :
    (killPids alive ps).1 = ps.all (fun p => decide (p ∈ alive)) := by
  induction ps with
  | nil => rfl
  | cons p t ih =>
    by_cases hp : p ∈ alive
    · simp [killPids, killStep, hp, ih]
    · simp [killPids, hp]

lemma killPids_kills (alive : List Nat) (ps : List Nat) :
    killsOf (killPids alive ps).2 = ps.takeWhile (fun p => decide (p ∈ alive)) := by
  induction ps with
  | nil => rfl
  | cons p t ih =>
    by_cases hp : p ∈ alive
    · simp [killPids, killStep, hp, killsOf, List.takeWhile_cons, ih]
    · simp [killPids, hp, killsOf, List.takeWhile_cons]

lemma killPids_events_shape (alive : List Nat) (ps : List Nat) :
    ∀ e ∈ (killPids alive ps).2, ∃ p, e = Event.kill p := by
  induction ps with
  | nil => intro e he; simp [killPids] at he
  | cons p t ih =>
    intro e he
    by_cases hp : p ∈ alive
    · rw [killPids, if_pos hp] at he
      rcases List.mem_cons.mp he with h | h
      · exact ⟨p, h⟩
      · exact ih e h
    · rw [killPids, if_neg hp] at he
      simp at he

lemma killLoop_ok (alive : List Nat) (m : List (List Char × List Nat)) :
    (killLoop alive m).1 = (flatPids m).all (fun p => decide (p ∈ alive)) := by
  induction m with
  | nil => rfl
  | cons x rest ih =>
    obtain ⟨cmd, ps⟩ := x
    have hps := killPids_ok alive ps
    cases hok : (killPids alive ps).1 with
    | true =>
      rw [hok] at hps
      simp [killLoop, killGroup, hok, flatPids_cons, List.all_append, ← hps, ih]
    | false =>
      rw [hok] at hps
      simp [killLoop, killGroup, hok, flatPids_cons, List.all_append, ← hps]

lemma killLoop_kills (alive : List Nat) (m : List (List Char × List Nat)) :
    killsOf (killLoop alive m).2 = (flatPids m).takeWhile (fun p => decide (p ∈ alive)) := by
  induction m with
  | nil => rfl
  | cons x rest ih =>
    obtain ⟨cmd, ps⟩ := x
    have hps := killPids_ok alive ps
    cases hok : (killPids alive ps).1 with
    | true =>
      rw [hok] at hps
      have hall : ∀ p ∈ ps, (fun p => decide (p ∈ alive)) p = true :=
        List.all_eq_true.mp hps.symm
      rw [killLoop, killGroup, if_pos hok]
      simp only [killsOf, killsOf_append, killPids_kills, ih, flatPids_cons]
      rw [takeWhile_append_all hall, takeWhile_eq_self_of_all hall]
    | false =>
      rw [hok] at hps
      rw [killLoop, killGroup, if_neg (by rw [hok]; exact Bool.false_ne_true)]
      simp only [killsOf, killPids_kills, flatPids_cons]
      rw [takeWhile_append_stop hps.symm]

lemma killLoop_events_shape (alive : List Nat) (m : List (List Char × List Nat)) :
    ∀ e ∈ (killLoop alive m).2,
      (∃ cm ps, e = Event.killList cm ps) ∨ ∃ p, e = Event.kill p := by
  induction m with
  | nil => intro e he; simp [killLoop] at he
  | cons x rest ih =>
    obtain ⟨cmd, ps⟩ := x
    intro e he
    rw [killLoop, killGroup] at he
    by_cases hok : (killPids alive ps).1 = true
    · rw [if_pos hok] at he
      rcases List.mem_cons.mp he with h | h
      · exact Or.inl ⟨cmd, ps, h⟩
      · rcases List.mem_append.mp h with h | h
        · exact Or.inr (killPids_events_shape alive ps e h)
        · exact ih e h
    · rw [if_neg hok] at he
      rcases List.mem_cons.mp he with h | h
      · exact Or.inl ⟨cmd, ps, h⟩
      · exact Or.inr (killPids_events_shape alive ps e h)

lemma tick_disc_ok {s : Sentry} {conn : Bool} {v o : List Char} {alive : List Nat}
    (hv : check_vpn v = false) (hok : (kill_processes s o alive).2.1 = true) :
    tick s conn v o alive =
      ((kill_processes s o alive).1, some false,
        (if conn then [Event.disconnLog] else ([] : List Event)) ++
          (kill_processes s o alive).2.2 ++ [Event.connectAttempt]) := by
  unfold tick
  rw [if_neg (by rw [hv]; exact Bool.false_ne_true), if_pos hok]

lemma tick_disc_err {s : Sentry} {conn : Bool} {v o : List Char} {alive : List Nat}
    (hv : check_vpn v = false) (hok : (kill_processes s o alive).2.1 = false) :
    tick s conn v o alive =
      ((kill_processes s o alive).1, none,
        (if conn then [Event.disconnLog] else ([] : List Event)) ++
          (kill_processes s o alive).2.2) := by
  unfold tick
  rw [if_neg (by rw [hv]; exact Bool.false_ne_true),
    if_neg (by rw [hok]; exact Bool.false_ne_true)]

lemma tick_conn_eq {s : Sentry} {conn : Bool} {v o : List Char} {alive : List Nat}
    (hv : check_vpn v = true) :
    tick s conn v o alive =
      ((runCommands s o).1, some true,
        (if conn then ([] : List Event) else [Event.connLog]) ++ (runCommands s o).2 ++
          [Event.sleep s.poll_rate]) := by
  unfold tick
  rw [if_pos hv]

/-- Claim C1, counterexample: on a disconnected tick whose enumeration
returns pids 3 and 4 for `deluged` while pid 3 no longer exists, the claim
says every enumerated pid is sent a terminate signal; in fact `os.kill(3)`
raises an uncaught error (source line 100), so enumerated pid 4 is never
signalled. -/
theorem C1_counterexample :
    4 ∈ flatPids (parse_ps sentryInit ("  3 deluged\n  4 deluged\n".toList)).2.1 ∧
      check_vpn ([] : List Char) = false ∧
      Event.kill 4 ∉
        (tick sentryInit false ([] : List Char) ("  3 deluged\n  4 deluged\n".toList) [4]).2.2 := by
  refine ⟨by decide, rfl, by decide⟩

/-- Claim C1 (amended): on every tick where the probe reports disconnected,
no launches are issued, and the loop attempts to terminate the enumerated
pids in order: when every pid the enumeration returned still exists, every
one of them is sent a terminate signal; a pid that no longer exists raises an
uncaught error that aborts the remaining terminations of that tick. -/
theorem C1_disconnect_kills (s : Sentry) (conn : Bool) (v o : List Char) (alive : List Nat)
    (hv : check_vpn v = false) :
    (∀ c, Event.launch c ∉ (tick s conn v o alive).2.2) ∧
      ((∀ p ∈ flatPids (parse_ps s o).2.1, p ∈ alive) →
        ∀ p ∈ flatPids (parse_ps s o).2.1, Event.kill p ∈ (tick s conn v o alive).2.2) := by
  have hnl : ∀ c : List Char, Event.launch c ∉ (kill_processes s o alive).2.2 := by
    intro c hmem
    rw [kill_processes_events] at hmem
    rcases List.mem_append.mp hmem with h | h
    · obtain ⟨c', hc'⟩ := pass2_events_reap ((parse_ps_events s o) ▸ h)
      exact Event.noConfusion hc'
    · rcases killLoop_events_shape alive _ _ h with ⟨cm, ps, hc'⟩ | ⟨p, hc'⟩ <;>
        exact Event.noConfusion hc'
  constructor
  · intro c hmem
    cases hok : (kill_processes s o alive).2.1 with
    | true =>
      rw [tick_disc_ok hv hok] at hmem
      rcases List.mem_append.mp hmem with h | h
      · rcases List.mem_append.mp h with h | h
        · cases conn <;> simp at h
        · exact hnl c h
      · simp at h
    | false =>
      rw [tick_disc_err hv hok] at hmem
      rcases List.mem_append.mp hmem with h | h
      · cases conn <;> simp at h
      · exact hnl c h
  · intro ha p hp
    have hall : (flatPids (parse_ps s o).2.1).all (fun p => decide (p ∈ alive)) = true :=
      List.all_eq_true.mpr (fun p hp => decide_eq_true (ha p hp))
    have hok : (kill_processes s o alive).2.1 = true := by
      rw [kill_processes_ok, killLoop_ok]
      exact hall
    rw [tick_disc_ok hv hok]
    have hk : p ∈ killsOf (kill_processes s o alive).2.2 := by
      have hreap : killsOf (parse_ps s o).2.2 = [] :=
        killsOf_of_reaps (fun e he => pass2_events_reap ((parse_ps_events s o) ▸ he))
      rw [kill_processes_events, killsOf_append, hreap, killLoop_kills,
        takeWhile_eq_self_of_all (List.all_eq_true.mp hall)]
      simpa using hp
    exact List.mem_append.mpr (Or.inl (List.mem_append.mpr (Or.inr (killsOf_mem hk))))

/-- Witness for the amended C1 at a concrete disconnected tick: no launches,
and with the single enumerated pid alive it receives its kill signal. -/
theorem C1_disconnect_kills_witness :
    (∀ c, Event.launch c ∉
        (tick sentryInit false ([] : List Char) ("  7 deluged\n".toList) [7]).2.2) ∧
      ((∀ p ∈ flatPids (parse_ps sentryInit ("  7 deluged\n".toList)).2.1, p ∈ [7]) →
        ∀ p ∈ flatPids (parse_ps sentryInit ("  7 deluged\n".toList)).2.1,
          Event.kill p ∈
            (tick sentryInit false ([] : List Char) ("  7 deluged\n".toList) [7]).2.2) :=
  C1_disconnect_kills sentryInit false [] ("  7 deluged\n".toList) [7] (by decide)

lemma killsOf_edge (conn : Bool) :
    killsOf (if conn then [Event.disconnLog] else ([] : List Event)) = [] := by
  cases conn <;> rfl

/-- Claim C4, counterexample: the table lists pids 1 and 2 for `deluged` but
pid 1 no longer exists.  `os.kill(1, SIGKILL)` raises; the claim says the
error is tolerated, the remaining pids are killed and the loop continues, but
in fact the tick ends with the exception escaping (the loop breaks) and pid 2
is never signalled. -/
theorem C4_counterexample :
    (tick sentryInit false ([] : List Char) ("  1 deluged\n  2 deluged\n".toList) [2]).2.1 =
        none ∧
      Event.kill 2 ∉
        (tick sentryInit false ([] : List Char) ("  1 deluged\n  2 deluged\n".toList) [2]).2.2 := by
  constructor
  · decide
  · decide

/-- Claim C4 (amended): calling `os.kill` on a pid that no longer exists
raises an error that is not caught anywhere: `kill_processes` stops at that
pid — the pids after it in kill order receive no signal (the kills performed
are exactly the longest alive-only prefix of the listed pids) — and the loop
breaks instead of continuing (the `finally` cleanup of `run` then takes
over). -/
theorem C4_stale_pid_breaks_loop (s : Sentry) (conn : Bool) (v o : List Char)
    (alive : List Nat) (hv : check_vpn v = false)
    (hdead : ∃ p ∈ flatPids (parse_ps s o).2.1, p ∉ alive) :
    (tick s conn v o alive).2.1 = none ∧
      killsOf (tick s conn v o alive).2.2 =
        (flatPids (parse_ps s o).2.1).takeWhile (fun p => decide (p ∈ alive)) := by
  have hall : (flatPids (parse_ps s o).2.1).all (fun p => decide (p ∈ alive)) = false := by
    obtain ⟨p, hp, hpa⟩ := hdead
    cases hcase : (flatPids (parse_ps s o).2.1).all (fun p => decide (p ∈ alive)) with
    | false => rfl
    | true => exact absurd (of_decide_eq_true (List.all_eq_true.mp hcase p hp)) hpa
  have hok : (kill_processes s o alive).2.1 = false := by
    rw [kill_processes_ok, killLoop_ok]
    exact hall
  rw [tick_disc_err hv hok]
  refine ⟨rfl, ?_⟩
  have hreap : killsOf (parse_ps s o).2.2 = [] :=
    killsOf_of_reaps (fun e he => pass2_events_reap ((parse_ps_events s o) ▸ he))
  rw [killsOf_append, killsOf_edge, kill_processes_events, killsOf_append, hreap,
    killLoop_kills]
  rfl

/-- Witness for the amended C4: with listed pids `[1, 2]` and only pid 2
alive, the tick breaks the loop and the performed kills are the alive-only
prefix (empty, so pid 2 is skipped). -/
theorem C4_stale_pid_breaks_loop_witness :
    (tick sentryInit false ([] : List Char) ("  1 deluged\n  2 deluged\n".toList) [2]).2.1 =
        none ∧
      killsOf
          (tick sentryInit false ([] : List Char)
            ("  1 deluged\n  2 deluged\n".toList) [2]).2.2 =
        (flatPids
            (parse_ps sentryInit ("  1 deluged\n  2 deluged\n".toList)).2.1).takeWhile
          (fun p => decide (p ∈ [2])) :=
  C4_stale_pid_breaks_loop sentryInit false [] ("  1 deluged\n  2 deluged\n".toList) [2]
    (by decide) ⟨1, by decide, by decide⟩

/-- Claim C5, counterexample: when the loop has stopped and the `finally`
cleanup runs with listed pids 1 and 2 of which pid 1 no longer exists, the
claim says the cleanup still completes all planned terminations; in fact the
uncaught `os.kill` error aborts it and pid 2 is never signalled. -/
theorem C5_counterexample :
    (run_finally sentryInit ("  1 deluged\n  2 deluged\n".toList) [2]).2.1 = false ∧
      Event.kill 2 ∉
        (run_finally sentryInit ("  1 deluged\n  2 deluged\n".toList) [2]).2.2 := by
  constructor
  · decide
  · decide

/-- Claim C5 (amended): whenever the loop stops, for any reason, the `finally`
block of `run` executes `kill_processes` once as the last action before exit;
that cleanup terminates the listed pids only up to the first failure — its
kills are exactly the longest alive-only prefix of the listed pids (so it
completes all planned terminations exactly when every per-pid termination
succeeds), and its success flag is the conjunction of the per-pid
successes. -/
theorem C5_cleanup_kills (s : Sentry) (o : List Char) (alive : List Nat) :
    killsOf (run_finally s o alive).2.2 =
        (flatPids (parse_ps s o).2.1).takeWhile (fun p => decide (p ∈ alive)) ∧
      (run_finally s o alive).2.1 =
        (flatPids (parse_ps s o).2.1).all (fun p => decide (p ∈ alive)) := by
  constructor
  · have hreap : killsOf (parse_ps s o).2.2 = [] :=
      killsOf_of_reaps (fun e he => pass2_events_reap ((parse_ps_events s o) ▸ he))
    rw [run_finally_events]
    show killsOf (kill_processes s o alive).2.2 = _
    rw [kill_processes_events, killsOf_append, hreap, killLoop_kills]
    rfl
  · rw [run_finally_ok, kill_processes_ok, killLoop_ok]

/-! Lemmas about launching and the connected branch. -/

lemma launchStep_procs (c : List Char) (r : List (List Char) × List Event) :
    (launchStep c r).1 = r.1 := rfl

lemma launchStep_events (c : List Char) (r : List (List Char) × List Event) :
    (launchStep c r).2 = Event.launch c :: r.2 := rfl

lemma runCommands_procs (s : Sentry) (o : List Char) :
    (runCommands s o).1.processes =
      (launchGo (keysOf (parse_ps s o).2.1) s.command_list (parse_ps s o).1.processes).1 := rfl

lemma runCommands_events (s : Sentry) (o : List Char) :
    (runCommands s o).2 =
      (parse_ps s o).2.2 ++
        (launchGo (keysOf (parse_ps s o).2.1) s.command_list (parse_ps s o).1.processes).2 := rfl

lemma runCommands_cl (s : Sentry) (o : List Char) :
    (runCommands s o).1.command_list = s.command_list := rfl

lemma launchGo_events_shape {keys : List (List Char)} (cs : List (List Char)) :
    ∀ {procs : List (List Char)} {e : Event},
      e ∈ (launchGo keys cs procs).2 → ∃ c, e = Event.launch c := by
  induction cs with
  | nil => intro procs e he; simp [launchGo] at he
  | cons c cs' ih =>
    intro procs e he
    by_cases hc : c ∈ keys
    · rw [launchGo, if_pos hc] at he
      exact ih he
    · rw [launchGo, if_neg hc, launchStep_events] at he
      rcases List.mem_cons.mp he with h | h
      · exact ⟨c, h⟩
      · exact ih h

lemma launchGo_count_notmem {keys : List (List Char)} {cmdQ : List Char} (cs : List (List Char)) :
    ∀ {procs : List (List Char)}, cmdQ ∉ cs →
      countOf (Event.launch cmdQ) (launchGo keys cs procs).2 = 0 := by
  induction cs with
  | nil => intro procs _; rfl
  | cons c cs' ih =>
    intro procs hnm
    rw [List.mem_cons, not_or] at hnm
    by_cases hc : c ∈ keys
    · rw [launchGo, if_pos hc]
      exact ih hnm.2
    · rw [launchGo, if_neg hc, launchStep_events, countOf,
        if_neg (fun he => hnm.1 (Event.launch.inj he).symm), ih hnm.2]

lemma launchGo_count_key {keys : List (List Char)} {cmdQ : List Char}
    (hkey : cmdQ ∈ keys) (cs : List (List Char)) :
    ∀ {procs : List (List Char)},
      countOf (Event.launch cmdQ) (launchGo keys cs procs).2 = 0 := by
  induction cs with
  | nil => intro procs; rfl
  | cons c cs' ih =>
    intro procs
    by_cases hc : c ∈ keys
    · rw [launchGo, if_pos hc]
      exact ih
    · have hne : c ≠ cmdQ := fun he => hc (he ▸ hkey)
      rw [launchGo, if_neg hc, launchStep_events, countOf,
        if_neg (fun he => hne (Event.launch.inj he)), ih]

lemma launchGo_count_one {keys : List (List Char)} {cmdQ : List Char} (cs : List (List Char)) :
    ∀ {procs : List (List Char)}, cs.Nodup → cmdQ ∈ cs → cmdQ ∉ keys →
      countOf (Event.launch cmdQ) (launchGo keys cs procs).2 = 1 := by
  induction cs with
  | nil => intro procs _ hmem _; exact absurd hmem (List.not_mem_nil cmdQ)
  | cons c cs' ih =>
    intro procs hnd hmem hkey
    rw [List.nodup_cons] at hnd
    rcases List.mem_cons.mp hmem with h | h
    · subst h
      rw [launchGo, if_neg hkey, launchStep_events, countOf, if_pos rfl,
        launchGo_count_notmem cs' hnd.1]
    · have hne : c ≠ cmdQ := fun he => hnd.1 (he ▸ h)
      by_cases hc : c ∈ keys
      · rw [launchGo, if_pos hc]
        exact ih hnd.2 h hkey
      · rw [launchGo, if_neg hc, launchStep_events, countOf,
          if_neg (fun he => hne (Event.launch.inj he)), ih hnd.2 h hkey]

lemma insertKey_mem_self (procs : List (List Char)) (c : List Char) : c ∈ insertKey procs c := by
  by_cases h : c ∈ procs
  · simp [insertKey, h]
  · simp [insertKey, h]

lemma insertKey_mem_mono {procs : List (List Char)} {a : List Char} (c : List Char)
    (h : a ∈ procs) : a ∈ insertKey procs c := by
  unfold insertKey
  by_cases hc : c ∈ procs
  · rwa [if_pos hc]
  · rw [if_neg hc]
    exact List.mem_append.mpr (Or.inl h)

lemma insertKey_src {procs : List (List Char)} {a c : List Char}
    (h : a ∈ insertKey procs c) : a ∈ procs ∨ a = c := by
  unfold insertKey at h
  by_cases hc : c ∈ procs
  · rw [if_pos hc] at h
    exact Or.inl h
  · rw [if_neg hc] at h
    rcases List.mem_append.mp h with h | h
    · exact Or.inl h
    · exact Or.inr (List.mem_singleton.mp h)

lemma insertKey_nodup {procs : List (List Char)} (c : List Char)
    (h : procs.Nodup) : (insertKey procs c).Nodup := by
  unfold insertKey
  by_cases hc : c ∈ procs
  · rwa [if_pos hc]
  · rw [if_neg hc, List.nodup_append]
    exact ⟨h, List.nodup_singleton c, fun a ha hb => hc ((List.mem_singleton.mp hb) ▸ ha)⟩

lemma launchGo_procs_mono {keys : List (List Char)} (cs : List (List Char)) :
    ∀ {procs : List (List Char)} {a : List Char},
      a ∈ procs → a ∈ (launchGo keys cs procs).1 := by
  induction cs with
  | nil => intro procs a h; exact h
  | cons c cs' ih =>
    intro procs a h
    by_cases hc : c ∈ keys
    · rw [launchGo, if_pos hc]
      exact ih h
    · rw [launchGo, if_neg hc, launchStep_procs]
      exact ih (insertKey_mem_mono c h)

lemma launchGo_mem_procs {keys : List (List Char)} (cs : List (List Char)) :
    ∀ {procs : List (List Char)} {cmdQ : List Char}, cmdQ ∈ cs → cmdQ ∉ keys →
      cmdQ ∈ (launchGo keys cs procs).1 := by
  induction cs with
  | nil => intro procs cmdQ hmem _; exact absurd hmem (List.not_mem_nil cmdQ)
  | cons c cs' ih =>
    intro procs cmdQ hmem hkey
    rcases List.mem_cons.mp hmem with h | h
    · subst h
      rw [launchGo, if_neg hkey, launchStep_procs]
      exact launchGo_procs_mono cs' (insertKey_mem_self procs cmdQ)
    · by_cases hc : c ∈ keys
      · rw [launchGo, if_pos hc]
        exact ih h hkey
      · rw [launchGo, if_neg hc, launchStep_procs]
        exact ih h hkey

lemma launchGo_procs_src {keys : List (List Char)} (cs : List (List Char)) :
    ∀ {procs : List (List Char)} {a : List Char}, a ∈ (launchGo keys cs procs).1 →
      a ∈ procs ∨ a ∈ cs := by
  induction cs with
  | nil => intro procs a h; exact Or.inl h
  | cons c cs' ih =>
    intro procs a h
    by_cases hc : c ∈ keys
    · rw [launchGo, if_pos hc] at h
      rcases ih h with h' | h'
      · exact Or.inl h'
      · exact Or.inr (List.mem_cons_of_mem _ h')
    · rw [launchGo, if_neg hc, launchStep_procs] at h
      rcases ih h with h' | h'
      · rcases insertKey_src h' with h'' | h''
        · exact Or.inl h''
        · exact Or.inr (h'' ▸ List.mem_cons_self _ _)
      · exact Or.inr (List.mem_cons_of_mem _ h')

lemma launchGo_procs_nodup {keys : List (List Char)} (cs : List (List Char)) :
    ∀ {procs : List (List Char)}, procs.Nodup → (launchGo keys cs procs).1.Nodup := by
  induction cs with
  | nil => intro procs h; exact h
  | cons c cs' ih =>
    intro procs h
    by_cases hc : c ∈ keys
    · rw [launchGo, if_pos hc]
      exact ih h
    · rw [launchGo, if_neg hc, launchStep_procs]
      exact ih (insertKey_nodup c h)

/-- Claim C2: on a tick where the probe reports connected, every managed
command with no tracked handle and not present live in the enumeration (not
a key of `command_pids`) is launched exactly once and a handle is recorded
for it, and a command that is already running (a key of the enumeration) is
not launched.  The managed command list is assumed free of duplicates, as the
spec requires of the configuration. -/
theorem C2_connect_launches (s : Sentry) (conn : Bool) (v o : List Char) (alive : List Nat)
    (hv : check_vpn v = true) (hnd : s.command_list.Nodup) :
    (∀ cmdQ ∈ s.command_list, cmdQ ∉ s.processes → cmdQ ∉ keysOf (parse_ps s o).2.1 →
        countOf (Event.launch cmdQ) (tick s conn v o alive).2.2 = 1 ∧
          cmdQ ∈ (tick s conn v o alive).1.processes) ∧
      ∀ cmdQ ∈ keysOf (parse_ps s o).2.1,
        countOf (Event.launch cmdQ) (tick s conn v o alive).2.2 = 0 := by
  rw [tick_conn_eq hv]
  have hparse0 : ∀ cmdQ : List Char,
      countOf (Event.launch cmdQ) (parse_ps s o).2.2 = 0 := fun cmdQ =>
    countOf_eq_zero (fun hmem => by
      obtain ⟨c', hc'⟩ := pass2_events_reap ((parse_ps_events s o) ▸ hmem)
      exact Event.noConfusion hc')
  have hes0 : ∀ cmdQ : List Char,
      countOf (Event.launch cmdQ) (if conn then ([] : List Event) else [Event.connLog]) =
        0 := fun cmdQ => by cases conn <;> simp [countOf]
  have hsleep : ∀ cmdQ : List Char,
      countOf (Event.launch cmdQ) [Event.sleep s.poll_rate] = 0 := fun cmdQ => by
    simp [countOf]
  constructor
  · intro cmdQ hcl hnp hkeys
    constructor
    · rw [countOf_append, countOf_append, runCommands_events, countOf_append,
        hes0 cmdQ, hparse0 cmdQ, hsleep cmdQ, launchGo_count_one s.command_list hnd hcl hkeys]
    · rw [runCommands_procs]
      exact launchGo_mem_procs s.command_list hcl hkeys
  · intro cmdQ hkeys
    rw [countOf_append, countOf_append, runCommands_events, countOf_append,
      hes0 cmdQ, hparse0 cmdQ, hsleep cmdQ, launchGo_count_key hkeys s.command_list]

/-- Witness for C2: a connected tick from the initial state with an empty
process table launches `deluged` exactly once and records its handle. -/
theorem C2_connect_launches_witness :
    (∀ cmdQ ∈ sentryInit.command_list, cmdQ ∉ sentryInit.processes →
        cmdQ ∉ keysOf (parse_ps sentryInit ([] : List Char)).2.1 →
        countOf (Event.launch cmdQ)
            (tick sentryInit false ("Status: Connected".toList) ([] : List Char) []).2.2 = 1 ∧
          cmdQ ∈
            (tick sentryInit false ("Status: Connected".toList) ([] : List Char) []).1.processes) ∧
      ∀ cmdQ ∈ keysOf (parse_ps sentryInit ([] : List Char)).2.1,
        countOf (Event.launch cmdQ)
          (tick sentryInit false ("Status: Connected".toList) ([] : List Char) []).2.2 = 0 :=
  C2_connect_launches sentryInit false ("Status: Connected".toList) [] []
    (by decide) (by decide)

/-! The handle-map invariant and the loop-level lemmas. -/

lemma sentryInit_inv : SentryInv sentryInit := by
  unfold SentryInv
  exact ⟨fun c hc => absurd hc (List.not_mem_nil c), List.nodup_nil⟩

lemma parse_ps_inv {s : Sentry} (o : List Char) (h : SentryInv s) :
    SentryInv (parse_ps s o).1 := by
  unfold SentryInv at h ⊢
  rw [parse_ps_cl, parse_ps_procs]
  exact ⟨fun c hc => h.1 c (pass2_procs_subset hc), pass2_procs_nodup h.2⟩

lemma runCommands_inv {s : Sentry} (o : List Char) (h : SentryInv s) :
    SentryInv (runCommands s o).1 := by
  unfold SentryInv at h ⊢
  rw [runCommands_cl, runCommands_procs]
  constructor
  · intro c hc
    rcases launchGo_procs_src s.command_list hc with h' | h'
    · exact h.1 c (pass2_procs_subset h')
    · exact h'
  · exact launchGo_procs_nodup s.command_list (pass2_procs_nodup h.2)

/-- Claim C10: the handle-map invariant — every tracked key is a configured
managed command and no key occurs twice — holds of the initial state and is
preserved by every operation of the loop: the enumeration (with its reaping),
the launch pass, the kill pass, and a whole tick in either branch. -/
theorem C10_handle_invariant (s : Sentry) (o v : List Char) (alive : List Nat) (conn : Bool)
    (h : SentryInv s) :
    SentryInv sentryInit ∧ SentryInv (parse_ps s o).1 ∧ SentryInv (runCommands s o).1 ∧
      SentryInv (kill_processes s o alive).1 ∧ SentryInv (tick s conn v o alive).1 := by
  refine ⟨sentryInit_inv, parse_ps_inv o h, runCommands_inv o h, ?_, ?_⟩
  · rw [kill_processes_state]
    exact parse_ps_inv o h
  · cases hv : check_vpn v with
    | true =>
      rw [tick_conn_eq hv]
      exact runCommands_inv o h
    | false =>
      cases hok : (kill_processes s o alive).2.1 with
      | true =>
        rw [tick_disc_ok hv hok]
        rw [kill_processes_state]
        exact parse_ps_inv o h
      | false =>
        rw [tick_disc_err hv hok]
        rw [kill_processes_state]
        exact parse_ps_inv o h

/-- Witness for C10 at the initial state and a concrete tick input. -/
theorem C10_handle_invariant_witness :
    SentryInv sentryInit ∧ SentryInv (parse_ps sentryInit ([] : List Char)).1 ∧
      SentryInv (runCommands sentryInit ([] : List Char)).1 ∧
      SentryInv (kill_processes sentryInit ([] : List Char) []).1 ∧
      SentryInv (tick sentryInit false ([] : List Char) ([] : List Char) []).1 :=
  C10_handle_invariant sentryInit [] [] [] false sentryInit_inv

/-! Loop-level lemmas for the edge-logging claim. -/

lemma loopStep_some {tk : Sentry × Option Bool × List Event} {c : Bool}
    (f : Bool → Sentry × Option Bool × List Event) (h : tk.2.1 = some c) :
    loopStep tk f = ((f c).1, (f c).2.1, tk.2.2 ++ (f c).2.2) := by
  unfold loopStep
  rw [h]

lemma tick_cl (s : Sentry) (conn : Bool) (v o : List Char) (alive : List Nat) :
    (tick s conn v o alive).1.command_list = s.command_list := by
  cases hv : check_vpn v with
  | true =>
    rw [tick_conn_eq hv]
    exact runCommands_cl s o
  | false =>
    cases hok : (kill_processes s o alive).2.1 with
    | true => rw [tick_disc_ok hv hok]; rfl
    | false => rw [tick_disc_err hv hok]; rfl

lemma tick_conn_val (s : Sentry) (conn : Bool) (v o : List Char) (alive : List Nat)
    (H : ∀ x ∈ matchesFound s.command_list o, x.2.1 ∈ alive) :
    (tick s conn v o alive).2.1 = some (check_vpn v) := by
  cases hv : check_vpn v with
  | true => rw [tick_conn_eq hv]
  | false =>
    have hok : (kill_processes s o alive).2.1 = true := by
      rw [kill_processes_ok, killLoop_ok]
      refine List.all_eq_true.mpr (fun p hp => decide_eq_true ?_)
      rcases pass2_flat_src ((parse_ps_map s o) ▸ hp) with h0 | ⟨x, hx, hxp⟩
      · simp [flatPids] at h0
      · exact hxp ▸ H x hx
    rw [tick_disc_ok hv hok]

lemma tick_count_connLog (s : Sentry) (conn : Bool) (v o : List Char) (alive : List Nat) :
    countOf Event.connLog (tick s conn v o alive).2.2 =
      if check_vpn v && !conn then 1 else 0 := by
  cases hv : check_vpn v with
  | true =>
    rw [tick_conn_eq hv]
    have h1 : countOf Event.connLog (runCommands s o).2 = 0 := countOf_eq_zero (by
      intro hmem
      rw [runCommands_events] at hmem
      rcases List.mem_append.mp hmem with h | h
      · obtain ⟨c', hc'⟩ := pass2_events_reap ((parse_ps_events s o) ▸ h)
        exact Event.noConfusion hc'
      · obtain ⟨c', hc'⟩ := launchGo_events_shape s.command_list h
        exact Event.noConfusion hc')
    simp only [countOf_append, h1]
    cases conn <;> simp [countOf]
  | false =>
    have h2 : countOf Event.connLog (kill_processes s o alive).2.2 = 0 := countOf_eq_zero (by
      intro hmem
      rw [kill_processes_events] at hmem
      rcases List.mem_append.mp hmem with h | h
      · obtain ⟨c', hc'⟩ := pass2_events_reap ((parse_ps_events s o) ▸ h)
        exact Event.noConfusion hc'
      · rcases killLoop_events_shape alive _ _ h with ⟨cm, ps, hc'⟩ | ⟨p, hc'⟩ <;>
          exact Event.noConfusion hc')
    cases hok : (kill_processes s o alive).2.1 with
    | true =>
      rw [tick_disc_ok hv hok]
      simp only [countOf_append, h2]
      cases conn <;> simp [countOf]
    | false =>
      rw [tick_disc_err hv hok]
      simp only [countOf_append, h2]
      cases conn <;> simp [countOf]

lemma tick_count_disconnLog (s : Sentry) (conn : Bool) (v o : List Char) (alive : List Nat) :
    countOf Event.disconnLog (tick s conn v o alive).2.2 =
      if !check_vpn v && conn then 1 else 0 := by
  cases hv : check_vpn v with
  | true =>
    rw [tick_conn_eq hv]
    have h1 : countOf Event.disconnLog (runCommands s o).2 = 0 := countOf_eq_zero (by
      intro hmem
      rw [runCommands_events] at hmem
      rcases List.mem_append.mp hmem with h | h
      · obtain ⟨c', hc'⟩ := pass2_events_reap ((parse_ps_events s o) ▸ h)
        exact Event.noConfusion hc'
      · obtain ⟨c', hc'⟩ := launchGo_events_shape s.command_list h
        exact Event.noConfusion hc')
    simp only [countOf_append, h1]
    cases conn <;> simp [countOf]
  | false =>
    have h2 : countOf Event.disconnLog (kill_processes s o alive).2.2 = 0 :=
      countOf_eq_zero (by
        intro hmem
        rw [kill_processes_events] at hmem
        rcases List.mem_append.mp hmem with h | h
        · obtain ⟨c', hc'⟩ := pass2_events_reap ((parse_ps_events s o) ▸ h)
          exact Event.noConfusion hc'
        · rcases killLoop_events_shape alive _ _ h with ⟨cm, ps, hc'⟩ | ⟨p, hc'⟩ <;>
            exact Event.noConfusion hc')
    cases hok : (kill_processes s o alive).2.1 with
    | true =>
      rw [tick_disc_ok hv hok]
      simp only [countOf_append, h2]
      cases conn <;> simp [countOf]
    | false =>
      rw [tick_disc_err hv hok]
      simp only [countOf_append, h2]
      cases conn <;> simp [countOf]

/-- Claim C8: starting from a previous-connectivity flag (the loop seeds it
to disconnected), and provided every matched pid exists on every tick (no
tick breaks the loop), the number of connect-edge logs of a finite run equals
the number of false-to-true changes of the probe's reported state between
consecutive ticks, and likewise for disconnect-edge logs — one edge event per
actual change, none otherwise. -/
theorem C8_edge_logging (s : Sentry) (conn : Bool) (ts : List TickIn)
    (H : ∀ t ∈ ts, ∀ x ∈ matchesFound s.command_list t.ps, x.2.1 ∈ t.alive) :
    countOf Event.connLog (loopRun s conn ts).2.2 =
        rises conn (ts.map fun t => check_vpn t.vpn) ∧
      countOf Event.disconnLog (loopRun s conn ts).2.2 =
        falls conn (ts.map fun t => check_vpn t.vpn) := by
  induction ts generalizing s conn with
  | nil => exact ⟨rfl, rfl⟩
  | cons t ts' ih =>
    have Ht := H t (List.mem_cons_self _ _)
    have hconn : (tick s conn t.vpn t.ps t.alive).2.1 = some (check_vpn t.vpn) :=
      tick_conn_val s conn t.vpn t.ps t.alive Ht
    have H' : ∀ u ∈ ts',
        ∀ x ∈ matchesFound (tick s conn t.vpn t.ps t.alive).1.command_list u.ps,
          x.2.1 ∈ u.alive := by
      intro u hu x hx
      rw [tick_cl] at hx
      exact H u (List.mem_cons_of_mem _ hu) x hx
    obtain ⟨ih1, ih2⟩ := ih (tick s conn t.vpn t.ps t.alive).1 (check_vpn t.vpn) H'
    have hev : (loopRun s conn (t :: ts')).2.2 =
        (tick s conn t.vpn t.ps t.alive).2.2 ++
          (loopRun (tick s conn t.vpn t.ps t.alive).1 (check_vpn t.vpn) ts').2.2 := by
      rw [loopRun, loopStep_some _ hconn]
    constructor
    · rw [hev, countOf_append, tick_count_connLog, ih1, List.map_cons, rises]
    · rw [hev, countOf_append, tick_count_disconnLog, ih2, List.map_cons, falls]

/-- Witness for C8: the scenario connected, connected, disconnected, run from
the seeded disconnected flag, logs exactly one connect edge and exactly one
disconnect edge. -/
theorem C8_edge_logging_witness :
    countOf Event.connLog
        (loopRun sentryInit false
          [⟨"Status: Connected".toList, [], []⟩, ⟨"Status: Connected".toList, [], []⟩,
            ⟨"Status: Disconnected".toList, [], []⟩]).2.2 = 1 ∧
      countOf Event.disconnLog
        (loopRun sentryInit false
          [⟨"Status: Connected".toList, [], []⟩, ⟨"Status: Connected".toList, [], []⟩,
            ⟨"Status: Disconnected".toList, [], []⟩]).2.2 = 1 := by
  have h := C8_edge_logging sentryInit false
    [⟨"Status: Connected".toList, [], []⟩, ⟨"Status: Connected".toList, [], []⟩,
      ⟨"Status: Disconnected".toList, [], []⟩] (by decide)
  exact ⟨h.1.trans (by decide), h.2.trans (by decide)⟩
